import Mathlib

/-!
Verification of the rectangle-packing layout (`kuaizhuangtu.py`) and the
bubble-chart radius computation (`guanliantu.py`) of this repository.

The Python code computes with machine floats; the embedding models the
arithmetic over `ℚ` (and over `ℝ` for the one real power `** 1.5`), which is
the idealised semantics that the tolerance language of the spec refers to.
Fallible operations (Python exceptions) are modelled with `Option` / `Except`:
a `ZeroDivisionError` inside the packer becomes `none`, the `ValueError`
validations of `draw_rectangles_by_ratio` become `Except.error`.
-/

/-- An axis-aligned rectangle `(x, y, width, height)`, the tuple stored into
the `rectangles` array by `split_area`. -/
structure Rect where
  x : ℚ
  y : ℚ
  width : ℚ
  height : ℚ
deriving DecidableEq, Repr

/-- `ratios[i]`: list indexing as used by the packer (all indices it builds
are in range, so the default is never exercised on real runs). -/
def ratioAt (ratios : List ℚ) (i : ℕ) : ℚ :=
  ratios.getD i 0

/-- `sum(ratios[i] for i in indices)`. -/
def sumR (ratios : List ℚ) (indices : List ℕ) : ℚ :=
  (indices.map (ratioAt ratios)).sum

/-- The `for i in range(len(indices) - 1)` loop of `split_area`
(kuaizhuangtu.py lines 116-126) that searches for the split point.
`some sp` models `break` with `split_point = sp`; `none` models the loop
running to completion, in which case the `for`/`else` clause of the source
assigns `len(indices) - 1`.  The two redundant inner assignments of the
source (both branches set `split_point = i + 1` and break) are kept as the
redundant inner `if`. -/
def splitLoop (ratios : List ℚ) (indices : List ℕ) (target : ℚ)
    (i : ℕ) (cumulative : ℚ) : Option ℕ :=
  if h : i < indices.length - 1 then
    let cumulative := cumulative + ratioAt ratios (indices.getD i 0)
    if cumulative ≥ target then
      if i + 1 < indices.length - 1 then
        let next_cumulative := cumulative + ratioAt ratios (indices.getD (i + 1) 0)
        if |cumulative - target| ≤ |next_cumulative - target| then
          some (i + 1)
        else
          some (i + 1)
      else
        some (i + 1)
    else
      splitLoop ratios indices target (i + 1) cumulative
  else
    none
termination_by indices.length - 1 - i

/-- The split point chosen by `split_area` for a region holding `indices`:
the loop result, or `len(indices) - 1` from the `for`/`else` clause.
(The initialisation `split_point = 1` of the source is dead: every `break`
assigns first, and the `else` clause overwrites otherwise.) -/
def splitPoint (ratios : List ℚ) (indices : List ℕ) (target : ℚ) : ℕ :=
  match splitLoop ratios indices target 0 0 with
  | some sp => sp
  | none => indices.length - 1

theorem splitLoop_some_bound (ratios : List ℚ) (indices : List ℕ) (target : ℚ) :
    ∀ (fuel i : ℕ) (c : ℚ) (sp : ℕ), indices.length - 1 - i ≤ fuel →
      splitLoop ratios indices target i c = some sp →
      1 ≤ sp ∧ sp ≤ indices.length - 1 := by
  intro fuel
  induction fuel with
  | zero =>
    intro i c sp hle h
    rw [splitLoop] at h
    split at h
    · omega
    · exact absurd h (by simp)
  | succ n ih =>
    intro i c sp hle h
    rw [splitLoop] at h
    split at h
    · next hi =>
      dsimp only at h
      split at h
      · split at h
        · split at h <;> (injection h with h; omega)
        · injection h with h; omega
      · exact ih (i + 1) _ sp (by omega) h
    · exact absurd h (by simp)

theorem splitPoint_bound (ratios : List ℚ) (indices : List ℕ) (target : ℚ)
    (h2 : 2 ≤ indices.length) :
    1 ≤ splitPoint ratios indices target ∧
      splitPoint ratios indices target ≤ indices.length - 1 := by
  rw [splitPoint]
  rcases hl : splitLoop ratios indices target 0 0 with _ | sp
  · simp only [hl]
    omega
  · simp only [hl]
    exact splitLoop_some_bound ratios indices target (indices.length - 1) 0 0 sp
      (by omega) hl

/-- `split_area` of kuaizhuangtu.py (lines 94-148), with the mutation of the
enclosing `rectangles` array modelled by returning the list of
`(index, rectangle)` assignments in the order they are performed.
`none` models the `ZeroDivisionError` raised when
`left_ratio + right_ratio` is zero (which is how the empty-`indices` call
dies in the source as well). -/
def split_area (ratios : List ℚ) (x y width height : ℚ) (indices : List ℕ) :
    Option (List (ℕ × Rect)) :=
  if _h1 : indices.length = 1 then
    some [(indices.getD 0 0, ⟨x, y, width, height⟩)]
  else
    let total := sumR ratios indices
    let target := total / 2
    let split_point := splitPoint ratios indices target
    let left_indices := indices.take split_point
    let right_indices := indices.drop split_point
    let left_ratio := sumR ratios left_indices
    let right_ratio := sumR ratios right_indices
    if _hz : left_ratio + right_ratio = 0 then
      none
    else if width ≥ height * (7 / 10) then
      let left_width := width * left_ratio / (left_ratio + right_ratio)
      (split_area ratios x y left_width height left_indices).bind fun a =>
        (split_area ratios (x + left_width) y (width - left_width) height
          right_indices).map fun b => a ++ b
    else
      let bottom_height := height * left_ratio / (left_ratio + right_ratio)
      (split_area ratios x y width bottom_height left_indices).bind fun a =>
        (split_area ratios x (y + bottom_height) width (height - bottom_height)
          right_indices).map fun b => a ++ b
termination_by indices.length
decreasing_by
  all_goals
    have h0 : indices ≠ [] := by
      intro hnil
      apply _hz
      show sumR ratios (List.take split_point indices) +
        sumR ratios (List.drop split_point indices) = 0
      rw [hnil]
      simp [sumR]
    have h2 : 2 ≤ indices.length := by
      have hpos := List.length_pos.mpr h0
      omega
    have hb := splitPoint_bound ratios indices (sumR ratios indices / 2) h2
    simp only [List.length_take, List.length_drop]
    omega

/-- `layout_rectangles_exact` of kuaizhuangtu.py (lines 82-157): sort the
indices by ratio descending (the Python sort is stable; `List.insertionSort`
with this relation is the same stable descending order), run `split_area` on
the unit square, and play the recorded assignments into the
`rectangles = [None] * len(ratios)` array. -/
def layout_rectangles_exact (ratios : List ℚ) : Option (List (Option Rect)) :=
  let indices := List.insertionSort
    (fun i j => ratioAt ratios j ≤ ratioAt ratios i) (List.range ratios.length)
  (split_area ratios 0 0 1 1 indices).map fun asgn =>
    asgn.foldl (fun acc p => acc.set p.1 (some p.2))
      (List.replicate ratios.length none)

/-- `math.isclose(a, b, rel_tol=1e-9)` (with the default `abs_tol=0`). -/
def isclose (a b : ℚ) : Bool :=
  |a - b| ≤ 1 / 1000000000 * max |a| |b|

/-- The default label text (the formatted ratio); only its presence and the
resulting list length are ever used by the validation logic. -/
def formatLabel (r : ℚ) : String :=
  toString r

/-- The validation prefix and layout call of `draw_rectangles_by_ratio`
(kuaizhuangtu.py lines 9-40).  The plotting that follows the layout call is
out of scope; the result keeps the layout outcome so that the error paths
are visibly taken before any layout work. -/
def draw_rectangles_by_ratio (ratios : List ℚ) (labels : Option (List String)) :
    Except String (Option (List (Option Rect))) :=
  let total_ratio := ratios.sum
  if ¬ isclose total_ratio 1 then
    Except.error "Ratios must sum to 1"
  else
    let labels := labels.getD (ratios.map formatLabel)
    if labels.length ≠ ratios.length then
      Except.error "Number of labels must match number of ratios"
    else
      Except.ok (layout_rectangles_exact ratios)

/-- `is_dark_color` of kuaizhuangtu.py (lines 184-196). -/
def is_dark_color (color : ℚ × ℚ × ℚ) : Bool :=
  299 / 1000 * color.1 + 587 / 1000 * color.2.1 + 114 / 1000 * color.2.2 < 1 / 2

/-- The label colour choice of `draw_rectangles_by_ratio` (line 61):
white text when `is_dark_color` holds, black text otherwise. -/
def label_text_color (color : ℚ × ℚ × ℚ) : String :=
  if is_dark_color color then "white" else "black"

/-- The circle-radius computation of `draw_association_chart`
(guanliantu.py lines 139-155): a fixed radius `0.4` when all counts are
equal, otherwise `0.15 + 0.6 * normalized_count ** 1.5` with
`normalized_count = (count - min_count) / (max_count - min_count)`. -/
noncomputable def association_circle_radius (count min_count max_count : ℕ) : ℝ :=
  if max_count = min_count then
    2 / 5
  else
    3 / 20 + 3 / 5 *
      (((count : ℝ) - (min_count : ℝ)) / ((max_count : ℝ) - (min_count : ℝ)))
        ^ ((3 : ℝ) / 2)

/-- The area contributed by one entry of the `rectangles` array. -/
def areaOfOpt : Option Rect → ℚ
  | some r => r.width * r.height
  | none => 0

/-- Total area of the returned rectangles, `sum(rect[2] * rect[3] ...)` as in
`example_usage`. -/
def totalArea (rects : List (Option Rect)) : ℚ :=
  (rects.map areaOfOpt).sum

/-- The standard axis-aligned overlap test, exactly as written in
`example_usage` (kuaizhuangtu.py lines 256-257). -/
def rects_overlap (a b : Rect) : Prop :=
  a.x < b.x + b.width ∧ a.x + a.width > b.x ∧
    a.y < b.y + b.height ∧ a.y + a.height > b.y

/-- A rectangle lies inside the region `(x, y, w, h)` and has positive size. -/
def InRegion (x y w h : ℚ) (r : Rect) : Prop :=
  x ≤ r.x ∧ y ≤ r.y ∧ r.x + r.width ≤ x + w ∧ r.y + r.height ≤ y + h ∧
    0 < r.width ∧ 0 < r.height

theorem sumR_nil (ratios : List ℚ) : sumR ratios [] = 0 := rfl

theorem sumR_cons (ratios : List ℚ) (i : ℕ) (l : List ℕ) :
    sumR ratios (i :: l) = ratioAt ratios i + sumR ratios l := by
  simp [sumR]

theorem sumR_append (ratios : List ℚ) (l1 l2 : List ℕ) :
    sumR ratios (l1 ++ l2) = sumR ratios l1 + sumR ratios l2 := by
  simp [sumR]

theorem sumR_take_drop (ratios : List ℚ) (l : List ℕ) (k : ℕ) :
    sumR ratios (l.take k) + sumR ratios (l.drop k) = sumR ratios l := by
  rw [← sumR_append, List.take_append_drop]

theorem sumR_pos (ratios : List ℚ) (l : List ℕ) (hne : l ≠ [])
    (hpos : ∀ i ∈ l, 0 < ratioAt ratios i) : 0 < sumR ratios l := by
  induction l with
  | nil => exact absurd rfl hne
  | cons a t iht =>
    rw [sumR_cons]
    rcases t with _ | ⟨b, t2⟩
    · simpa [sumR_nil] using hpos a (by simp)
    · have ht : 0 < sumR ratios (b :: t2) :=
        iht (by simp) fun i hi => hpos i (by simp [hi])
      have ha : 0 < ratioAt ratios a := hpos a (by simp)
      linarith

theorem split_area_singleton (ratios : List ℚ) (x y w h : ℚ) (i : ℕ) :
    split_area ratios x y w h [i] = some [(i, ⟨x, y, w, h⟩)] := by
  rw [split_area]
  simp

/-- One unfolding of `split_area` on a region with at least two indices,
with the split point, the two ratio-sums and the child regions made
explicit. -/
theorem split_area_step_eq (ratios : List ℚ) (x y w h : ℚ) (indices : List ℕ)
    (h2 : 2 ≤ indices.length) (sp : ℕ) (L R : ℚ)
    (hsp : sp = splitPoint ratios indices (sumR ratios indices / 2))
    (hL : L = sumR ratios (indices.take sp))
    (hR : R = sumR ratios (indices.drop sp)) :
    split_area ratios x y w h indices =
      if L + R = 0 then none
      else if w ≥ h * (7 / 10) then
        (split_area ratios x y (w * L / (L + R)) h (indices.take sp)).bind
          fun a => (split_area ratios (x + w * L / (L + R)) y
            (w - w * L / (L + R)) h (indices.drop sp)).map fun b => a ++ b
      else
        (split_area ratios x y w (h * L / (L + R)) (indices.take sp)).bind
          fun a => (split_area ratios x (y + h * L / (L + R)) w
            (h - h * L / (L + R)) (indices.drop sp)).map fun b => a ++ b := by
  subst hsp hL hR
  rw [split_area, dif_neg (by omega : ¬ indices.length = 1)]
  rfl

theorem InRegion.mono {x y w h x' y' w' h' : ℚ} {r : Rect}
    (hr : InRegion x' y' w' h' r) (hx : x ≤ x') (hy : y ≤ y')
    (hxw : x' + w' ≤ x + w) (hyh : y' + h' ≤ y + h) : InRegion x y w h r := by
  obtain ⟨h1, h2, h3, h4, h5, h6⟩ := hr
  exact ⟨by linarith, by linarith, by linarith, by linarith, h5, h6⟩

theorem not_overlap_of_left_of (a b : Rect) (hsep : a.x + a.width ≤ b.x) :
    ¬ rects_overlap a b := by
  rintro ⟨-, hgt, -, -⟩
  exact absurd hgt (by simp only [gt_iff_lt, not_lt]; linarith)

theorem not_overlap_of_below_of (a b : Rect) (hsep : a.y + a.height ≤ b.y) :
    ¬ rects_overlap a b := by
  rintro ⟨-, -, -, hgt⟩
  exact absurd hgt (by simp only [gt_iff_lt, not_lt]; linarith)

/-- Structural soundness of `split_area` on positive ratios and a
positive-size region, proved by induction on an explicit fuel bound for the
length of `indices`: the recursion succeeds, records each index of `indices`
exactly once and in order, keeps every rectangle inside the region with
exact area share `w * h * ratio / total`, and the recorded rectangles are
pairwise non-overlapping. -/
theorem split_area_sound (ratios : List ℚ) :
    ∀ (fuel : ℕ) (indices : List ℕ) (x y w h : ℚ),
      indices.length ≤ fuel → indices ≠ [] →
      (∀ i ∈ indices, 0 < ratioAt ratios i) → 0 < w → 0 < h →
      ∃ l, split_area ratios x y w h indices = some l ∧
        l.map Prod.fst = indices ∧
        (∀ p ∈ l, InRegion x y w h p.2 ∧
          p.2.width * p.2.height =
            w * h * ratioAt ratios p.1 / sumR ratios indices) ∧
        l.Pairwise fun p q => ¬ rects_overlap p.2 q.2 := by
  intro fuel
  induction fuel with
  | zero =>
    intro indices x y w h hle hne _ _ _
    rcases indices with _ | ⟨a, t⟩
    · exact absurd rfl hne
    · simp at hle
  | succ n ih =>
    intro indices x y w h hle hne hpos hw hh
    by_cases h1 : indices.length = 1
    · obtain ⟨i, rfl⟩ := List.length_eq_one.mp h1
      refine ⟨[(i, ⟨x, y, w, h⟩)], split_area_singleton ratios x y w h i,
        by simp, ?_, by simp⟩
      intro p hp
      simp only [List.mem_singleton] at hp
      subst hp
      have hri : 0 < ratioAt ratios i := hpos i (by simp)
      refine ⟨⟨le_refl x, le_refl y, le_refl _, le_refl _, hw, hh⟩, ?_⟩
      show w * h = w * h * ratioAt ratios i / sumR ratios [i]
      rw [sumR_cons, sumR_nil, add_zero, mul_div_assoc,
        div_self (ne_of_gt hri), mul_one]
    · have h2 : 2 ≤ indices.length := by
        have := List.length_pos.mpr hne
        omega
      obtain ⟨hsp1, hsp2⟩ :=
        splitPoint_bound ratios indices (sumR ratios indices / 2) h2
      set sp := splitPoint ratios indices (sumR ratios indices / 2) with hspdef
      set left := indices.take sp with hleftdef
      set right := indices.drop sp with hrightdef
      have hltlen : left.length = sp := by
        rw [hleftdef, List.length_take]
        omega
      have hrtlen : right.length = indices.length - sp := by
        rw [hrightdef, List.length_drop]
      have hlne : left ≠ [] := by
        intro hcon
        rw [hcon] at hltlen
        simp at hltlen
        omega
      have hrne : right ≠ [] := by
        intro hcon
        rw [hcon] at hrtlen
        simp at hrtlen
        omega
      have hposL : ∀ i ∈ left, 0 < ratioAt ratios i := fun i hi =>
        hpos i (List.take_subset sp indices hi)
      have hposR : ∀ i ∈ right, 0 < ratioAt ratios i := fun i hi =>
        hpos i (List.drop_subset sp indices hi)
      set L := sumR ratios left with hLdef
      set R := sumR ratios right with hRdef
      have hLpos : 0 < L := sumR_pos ratios left hlne hposL
      have hRpos : 0 < R := sumR_pos ratios right hrne hposR
      have hT : L + R = sumR ratios indices := sumR_take_drop ratios indices sp
      have hTpos : (0 : ℚ) < L + R := by linarith
      have hTne : L + R ≠ 0 := ne_of_gt hTpos
      have hstep :=
        split_area_step_eq ratios x y w h indices h2 sp L R hspdef hLdef hRdef
      rw [if_neg hTne] at hstep
      have hlfuel : left.length ≤ n := by omega
      have hrfuel : right.length ≤ n := by omega
      by_cases hor : w ≥ h * (7 / 10)
      · rw [if_pos hor] at hstep
        set lw := w * L / (L + R) with hlwdef
        have hlwpos : 0 < lw := by
          rw [hlwdef]
          exact div_pos (mul_pos hw hLpos) hTpos
        have hlwlt : lw < w := by
          rw [hlwdef, div_lt_iff₀ hTpos]
          nlinarith [mul_pos hw hRpos]
        obtain ⟨la, hla, hka, hpa, hwa⟩ :=
          ih left x y lw h hlfuel hlne hposL hlwpos hh
        obtain ⟨lb, hlb, hkb, hpb, hwb⟩ :=
          ih right (x + lw) y (w - lw) h hrfuel hrne hposR (by linarith) hh
        refine ⟨la ++ lb, ?_, ?_, ?_, ?_⟩
        · rw [hstep, hla, hlb]
          rfl
        · rw [List.map_append, hka, hkb, hleftdef, hrightdef,
            List.take_append_drop]
        · intro p hp
          rcases List.mem_append.mp hp with hmem | hmem
          · obtain ⟨hreg, harea⟩ := hpa p hmem
            refine ⟨hreg.mono (le_refl x) (le_refl y) (by linarith)
              (le_refl _), ?_⟩
            rw [harea, ← hT, hlwdef]
            rw [div_mul_eq_mul_div, div_mul_eq_mul_div, div_div]
            rw [div_eq_div_iff (by positivity) (by positivity)]
            ring
          · obtain ⟨hreg, harea⟩ := hpb p hmem
            refine ⟨hreg.mono (by linarith) (le_refl y) (by linarith)
              (le_refl _), ?_⟩
            rw [harea, ← hT, hlwdef]
            rw [div_eq_div_iff (by positivity) (by positivity)]
            field_simp
            ring
        · refine List.pairwise_append.mpr ⟨hwa, hwb, ?_⟩
          intro p hp q hq
          have hp' := (hpa p hp).1
          have hq' := (hpb q hq).1
          exact not_overlap_of_left_of p.2 q.2
            (by linarith [hp'.2.2.1, hq'.1])
      · rw [if_neg hor] at hstep
        set bh := h * L / (L + R) with hbhdef
        have hbhpos : 0 < bh := by
          rw [hbhdef]
          exact div_pos (mul_pos hh hLpos) hTpos
        have hbhlt : bh < h := by
          rw [hbhdef, div_lt_iff₀ hTpos]
          nlinarith [mul_pos hh hRpos]
        obtain ⟨la, hla, hka, hpa, hwa⟩ :=
          ih left x y w bh hlfuel hlne hposL hw hbhpos
        obtain ⟨lb, hlb, hkb, hpb, hwb⟩ :=
          ih right x (y + bh) w (h - bh) hrfuel hrne hposR hw (by linarith)
        refine ⟨la ++ lb, ?_, ?_, ?_, ?_⟩
        · rw [hstep, hla, hlb]
          rfl
        · rw [List.map_append, hka, hkb, hleftdef, hrightdef,
            List.take_append_drop]
        · intro p hp
          rcases List.mem_append.mp hp with hmem | hmem
          · obtain ⟨hreg, harea⟩ := hpa p hmem
            refine ⟨hreg.mono (le_refl x) (le_refl y) (le_refl _)
              (by linarith), ?_⟩
            rw [harea, ← hT, hbhdef]
            rw [div_eq_div_iff (by positivity) (by positivity)]
            field_simp
            ring
          · obtain ⟨hreg, harea⟩ := hpb p hmem
            refine ⟨hreg.mono (le_refl x) (by linarith) (le_refl _)
              (by linarith), ?_⟩
            rw [harea, ← hT, hbhdef]
            rw [div_eq_div_iff (by positivity) (by positivity)]
            field_simp
            ring
        · refine List.pairwise_append.mpr ⟨hwa, hwb, ?_⟩
          intro p hp q hq
          have hp' := (hpa p hp).1
          have hq' := (hpb q hq).1
          exact not_overlap_of_below_of p.2 q.2
            (by linarith [hp'.2.2.2.1, hq'.2.1])

theorem foldl_set_length (l : List (ℕ × Rect)) :
    ∀ acc : List (Option Rect),
      (l.foldl (fun acc p => acc.set p.1 (some p.2)) acc).length = acc.length := by
  induction l with
  | nil => intro acc; rfl
  | cons p t iht =>
    intro acc
    rw [List.foldl_cons, iht, List.length_set]

theorem foldl_set_getD_not_mem (l : List (ℕ × Rect)) :
    ∀ (acc : List (Option Rect)) (i : ℕ), i ∉ l.map Prod.fst →
      (l.foldl (fun acc p => acc.set p.1 (some p.2)) acc).getD i none =
        acc.getD i none := by
  induction l with
  | nil => intro acc i _; rfl
  | cons p t iht =>
    intro acc i hi
    simp only [List.map_cons, List.mem_cons, not_or] at hi
    rw [List.foldl_cons, iht _ i hi.2, List.getD_eq_getElem?_getD,
      List.getD_eq_getElem?_getD,
      List.getElem?_set_ne (fun h => hi.1 h.symm)]

theorem foldl_set_getD_mem (l : List (ℕ × Rect)) :
    ∀ (acc : List (Option Rect)) (i : ℕ) (rect : Rect),
      (l.map Prod.fst).Nodup → (i, rect) ∈ l → i < acc.length →
      (l.foldl (fun acc p => acc.set p.1 (some p.2)) acc).getD i none =
        some rect := by
  induction l with
  | nil =>
    intro acc i rect _ hmem _
    exact absurd hmem (List.not_mem_nil _)
  | cons p t iht =>
    intro acc i rect hnodup hmem hlen
    simp only [List.map_cons, List.nodup_cons] at hnodup
    rcases List.mem_cons.mp hmem with heq | hmem'
    · subst heq
      rw [List.foldl_cons, foldl_set_getD_not_mem t _ i hnodup.1,
        List.getD_eq_getElem?_getD, List.getElem?_set_eq_of_lt _ hlen]
      rfl
    · rw [List.foldl_cons]
      exact iht _ i rect hnodup.2 hmem' (by rw [List.length_set]; exact hlen)

theorem sum_getD_range : ∀ l : List ℚ,
    ((List.range l.length).map fun i => l.getD i 0).sum = l.sum := by
  intro l
  induction l with
  | nil => rfl
  | cons a t iht =>
    rw [List.length_cons, List.range_succ_eq_map, List.map_cons,
      List.map_map, List.sum_cons, List.getD_cons_zero]
    have hcomp : ((fun i => (a :: t).getD i 0) ∘ Nat.succ) =
        fun i => t.getD i 0 := by
      funext i
      simp [List.getD_cons_succ]
    rw [hcomp, iht, List.sum_cons]

/-- Soundness of `layout_rectangles_exact` for any non-empty list of strictly
positive ratios (note: no sum-to-one assumption): the layout succeeds, one
rectangle is stored at each position, the `i`-th rectangle sits inside the
unit square with exact area `ratios[i] / sum(ratios)`, and rectangles at
distinct positions never overlap. -/
theorem layout_sound (ratios : List ℚ) (hne : ratios ≠ [])
    (hpos : ∀ r ∈ ratios, 0 < r) :
    ∃ rects, layout_rectangles_exact ratios = some rects ∧
      rects.length = ratios.length ∧
      (∀ i, i < ratios.length → ∃ rect, rects.getD i none = some rect ∧
        (0 ≤ rect.x ∧ 0 ≤ rect.y ∧ rect.x + rect.width ≤ 1 ∧
          rect.y + rect.height ≤ 1 ∧ 0 < rect.width ∧ 0 < rect.height) ∧
        rect.width * rect.height = ratios.getD i 0 / ratios.sum) ∧
      (∀ i j r1 r2, i ≠ j → rects.getD i none = some r1 →
        rects.getD j none = some r2 → ¬ rects_overlap r1 r2) := by
  obtain ⟨indices, hind⟩ : ∃ ind, ind = List.insertionSort
      (fun i j => ratioAt ratios j ≤ ratioAt ratios i)
      (List.range ratios.length) := ⟨_, rfl⟩
  have hperm : indices.Perm (List.range ratios.length) := by
    rw [hind]
    exact List.perm_insertionSort _ _
  have hmemiff : ∀ i, i ∈ indices ↔ i < ratios.length := by
    intro i
    rw [hperm.mem_iff, List.mem_range]
  have hindlen : indices.length = ratios.length := by
    rw [hperm.length_eq, List.length_range]
  have hindnodup : indices.Nodup := hperm.symm.nodup (List.nodup_range _)
  have hn0 : 0 < ratios.length := List.length_pos.mpr hne
  have hindne : indices ≠ [] := by
    intro hc
    rw [hc] at hindlen
    simp at hindlen
    omega
  have hposI : ∀ i ∈ indices, 0 < ratioAt ratios i := by
    intro i hi
    have hilt : i < ratios.length := (hmemiff i).mp hi
    have hmem2 : ratios.getD i 0 ∈ ratios := by
      rw [List.getD_eq_getElem?_getD, List.getElem?_eq_getElem hilt]
      simp only [Option.getD_some]
      exact List.getElem_mem hilt
    exact hpos _ hmem2
  have hsum : sumR ratios indices = ratios.sum := by
    rw [sumR]
    have hps : (indices.map (ratioAt ratios)).Perm
        ((List.range ratios.length).map (ratioAt ratios)) := hperm.map _
    rw [hps.sum_eq]
    exact sum_getD_range ratios
  obtain ⟨l, hsplit, hkeys, hprops, hpw⟩ :=
    split_area_sound ratios indices.length indices 0 0 1 1 le_rfl hindne hposI
      one_pos one_pos
  have hnodupkeys : (l.map Prod.fst).Nodup := by
    rw [hkeys]
    exact hindnodup
  have hlay : layout_rectangles_exact ratios =
      some (l.foldl (fun acc p => acc.set p.1 (some p.2))
        (List.replicate ratios.length none)) := by
    simp only [layout_rectangles_exact]
    rw [← hind, hsplit]
    rfl
  refine ⟨_, hlay, ?_, ?_, ?_⟩
  · rw [foldl_set_length, List.length_replicate]
  · intro i hi
    have hiI : i ∈ l.map Prod.fst := by
      rw [hkeys]
      exact (hmemiff i).mpr hi
    obtain ⟨⟨i1, rect⟩, hpmem, rfl⟩ := List.mem_map.mp hiI
    have hget := foldl_set_getD_mem l (List.replicate ratios.length none)
      i1 rect hnodupkeys hpmem (by rw [List.length_replicate]; exact hi)
    obtain ⟨hreg, harea⟩ := hprops _ hpmem
    refine ⟨rect, hget, ?_, ?_⟩
    · exact ⟨hreg.1, hreg.2.1, by linarith [hreg.2.2.1],
        by linarith [hreg.2.2.2.1], hreg.2.2.2.2.1, hreg.2.2.2.2.2⟩
    · rw [harea, hsum, one_mul, one_mul]
      rfl
  · intro i j r1 r2 hij hgi hgj
    have hkmem : ∀ (k : ℕ) (rk : Rect),
        (l.foldl (fun acc p => acc.set p.1 (some p.2))
          (List.replicate ratios.length none)).getD k none = some rk →
        (k, rk) ∈ l := by
      intro k rk hk
      by_cases hkI : k ∈ l.map Prod.fst
      · obtain ⟨⟨k1, rk1⟩, hpmem, rfl⟩ := List.mem_map.mp hkI
        have hklt : k1 < ratios.length := by
          have : (k1, rk1).1 ∈ indices := by
            rw [← hkeys]
            exact List.mem_map_of_mem Prod.fst hpmem
          exact (hmemiff k1).mp this
        have hget := foldl_set_getD_mem l (List.replicate ratios.length none)
          k1 rk1 hnodupkeys hpmem (by rw [List.length_replicate]; exact hklt)
        rw [hget] at hk
        injection hk with hk
        rw [← hk]
        exact hpmem
      · rw [foldl_set_getD_not_mem l _ k hkI, List.getD_eq_getElem?_getD,
          List.getElem?_replicate] at hk
        split at hk <;> simp at hk
    have h1 := hkmem i r1 hgi
    have h2 := hkmem j r2 hgj
    have hsym : Symmetric (fun p q : ℕ × Rect => ¬ rects_overlap p.2 q.2) := by
      intro p q hpq hover
      exact hpq ⟨hover.2.1, hover.1, hover.2.2.2, hover.2.2.1⟩
    have hpairneq : (i, r1) ≠ (j, r2) := by
      intro hc
      exact hij (congrArg Prod.fst hc)
    exact hpw.forall hsym h1 h2 hpairneq

theorem totalArea_eq (rects : List (Option Rect)) :
    totalArea rects =
      ((List.range rects.length).map fun i => areaOfOpt (rects.getD i none)).sum := by
  induction rects with
  | nil => rfl
  | cons a t iht =>
    rw [totalArea, List.map_cons, List.sum_cons, List.length_cons,
      List.range_succ_eq_map, List.map_cons, List.map_map,
      List.sum_cons, List.getD_cons_zero]
    have hcomp : ((fun i => areaOfOpt ((a :: t).getD i none)) ∘ Nat.succ) =
        fun i => areaOfOpt (t.getD i none) := by
      funext i
      simp [List.getD_cons_succ]
    rw [hcomp, ← totalArea, iht]

theorem sum_pos_of_mem_pos (ratios : List ℚ) (hne : ratios ≠ [])
    (hpos : ∀ r ∈ ratios, 0 < r) : 0 < ratios.sum := by
  induction ratios with
  | nil => exact absurd rfl hne
  | cons a t iht =>
    rw [List.sum_cons]
    rcases t with _ | ⟨b, t2⟩
    · simpa using hpos a (by simp)
    · have hts : 0 < (b :: t2).sum := iht (by simp) fun r hr => hpos r (by simp [hr])
      have ha : 0 < a := hpos a (by simp)
      linarith

/-- If the layout succeeds on positive ratios, the areas of the returned
rectangles sum to exactly 1. -/
theorem layout_totalArea_one (ratios : List ℚ) (hne : ratios ≠ [])
    (hpos : ∀ r ∈ ratios, 0 < r) :
    ∀ rects, layout_rectangles_exact ratios = some rects → totalArea rects = 1 := by
  intro rects hlay
  obtain ⟨rects2, hlay2, hlen, hprop, _⟩ := layout_sound ratios hne hpos
  rw [hlay] at hlay2
  injection hlay2 with hlay2
  subst hlay2
  rw [totalArea_eq, hlen]
  have hcong : ∀ i ∈ List.range ratios.length,
      areaOfOpt (rects.getD i none) = ratios.getD i 0 * (ratios.sum)⁻¹ := by
    intro i hi
    obtain ⟨rect, hget, _, harea⟩ := hprop i (List.mem_range.mp hi)
    rw [hget]
    show rect.width * rect.height = _
    rw [harea, div_eq_mul_inv]
  rw [List.map_congr_left hcong, List.sum_map_mul_right, sum_getD_range,
    mul_inv_cancel₀ (ne_of_gt (sum_pos_of_mem_pos ratios hne hpos))]

theorem isclose_iff (a b : ℚ) :
    isclose a b = true ↔ |a - b| ≤ 1 / 1000000000 * max |a| |b| := by
  rw [isclose]
  exact decide_eq_true_iff

theorem ne_nil_of_isclose_one (ratios : List ℚ)
    (hc : isclose ratios.sum 1 = true) : ratios ≠ [] := by
  intro hnil
  subst hnil
  rw [isclose_iff] at hc
  norm_num at hc

/-- The key tolerance transfer: if the total `s` passes the 1e-9 relative
sum check, each exact share `r / s` is within relative tolerance 1e-6 of
`r`. -/
theorem ratio_div_close (s r : ℚ) (hs : 0 < s) (hr : 0 < r)
    (hc : |s - 1| ≤ 1 / 1000000000 * max |s| 1) :
    |r / s - r| ≤ 1 / 1000000 * max |r / s| |r| := by
  have habs_s : |s| = s := abs_of_pos hs
  rw [habs_s] at hc
  have key : |r / s - r| = r * |1 - s| / s := by
    have hdiff : r / s - r = r * (1 - s) / s := by
      field_simp
      ring
    rw [hdiff, abs_div, abs_mul, abs_of_pos hr, abs_of_pos hs]
  have hmax : r ≤ max |r / s| |r| := le_max_of_le_right (abs_of_pos hr).ge
  have hstep : |1 - s| ≤ 1 / 1000000 * s := by
    rcases le_or_lt 1 s with hc1 | hc1
    · have hm : max s 1 = s := max_eq_left hc1
      rw [hm, abs_of_nonneg (by linarith : (0 : ℚ) ≤ s - 1)] at hc
      rw [abs_sub_comm, abs_of_nonneg (by linarith : (0 : ℚ) ≤ s - 1)]
      linarith
    · have hm : max s 1 = 1 := max_eq_right hc1.le
      rw [hm, mul_one, abs_of_nonpos (by linarith : s - 1 ≤ 0)] at hc
      rw [abs_of_nonneg (by linarith : (0 : ℚ) ≤ 1 - s)]
      linarith
  calc |r / s - r| = r * |1 - s| / s := key
    _ ≤ 1 / 1000000 * r := by
        rw [div_le_iff₀ hs]
        calc r * |1 - s| ≤ r * (1 / 1000000 * s) :=
              mul_le_mul_of_nonneg_left hstep hr.le
          _ = 1 / 1000000 * r * s := by ring
    _ ≤ 1 / 1000000 * max |r / s| |r| := by
        have h6 : (0 : ℚ) < 1 / 1000000 := by norm_num
        exact mul_le_mul_of_nonneg_left hmax h6.le

/-- C1: for every list of strictly positive ratios whose sum is 1 within
relative tolerance 1e-9, the rectangles returned by
`layout_rectangles_exact` have total area equal to 1 within tolerance 1e-6
(in the exact rational semantics the total is exactly 1). -/
theorem layout_coverage (ratios : List ℚ) (hpos : ∀ r ∈ ratios, 0 < r)
    (hclose : isclose ratios.sum 1 = true) :
    ∃ rects, layout_rectangles_exact ratios = some rects ∧
      totalArea rects = 1 ∧ |totalArea rects - 1| ≤ 1 / 1000000 := by
  have hne := ne_nil_of_isclose_one ratios hclose
  obtain ⟨rects, hlay, -, -, -⟩ := layout_sound ratios hne hpos
  have htot := layout_totalArea_one ratios hne hpos rects hlay
  refine ⟨rects, hlay, htot, ?_⟩
  rw [htot]
  norm_num

theorem layout_coverage_witness :
    ∃ rects, layout_rectangles_exact [1/2, 1/2] = some rects ∧
      totalArea rects = 1 ∧ |totalArea rects - 1| ≤ 1 / 1000000 :=
  layout_coverage [1/2, 1/2] (by norm_num) (by norm_num [isclose])

/-- C2: for every list of strictly positive ratios summing to 1 within
relative tolerance 1e-9, any two rectangles at distinct positions of the
result fail the standard axis-aligned overlap test, and every rectangle
lies inside the unit square. -/
theorem layout_disjoint_bounded (ratios : List ℚ) (hpos : ∀ r ∈ ratios, 0 < r)
    (hclose : isclose ratios.sum 1 = true) :
    ∃ rects, layout_rectangles_exact ratios = some rects ∧
      (∀ i, i < ratios.length → ∃ rect, rects.getD i none = some rect ∧
        0 ≤ rect.x ∧ 0 ≤ rect.y ∧ rect.x + rect.width ≤ 1 ∧
        rect.y + rect.height ≤ 1) ∧
      (∀ i j r1 r2, i ≠ j → rects.getD i none = some r1 →
        rects.getD j none = some r2 → ¬ rects_overlap r1 r2) := by
  have hne := ne_nil_of_isclose_one ratios hclose
  obtain ⟨rects, hlay, hlen, hprop, hover⟩ := layout_sound ratios hne hpos
  refine ⟨rects, hlay, ?_, hover⟩
  intro i hi
  obtain ⟨rect, hget, hb, -⟩ := hprop i hi
  exact ⟨rect, hget, hb.1, hb.2.1, hb.2.2.1, hb.2.2.2.1⟩

theorem layout_disjoint_bounded_witness :
    ∃ rects, layout_rectangles_exact [1/4, 1/4, 1/4, 1/4] = some rects ∧
      (∀ i, i < ([(1:ℚ)/4, 1/4, 1/4, 1/4]).length →
        ∃ rect, rects.getD i none = some rect ∧
        0 ≤ rect.x ∧ 0 ≤ rect.y ∧ rect.x + rect.width ≤ 1 ∧
        rect.y + rect.height ≤ 1) ∧
      (∀ i j r1 r2, i ≠ j → rects.getD i none = some r1 →
        rects.getD j none = some r2 → ¬ rects_overlap r1 r2) :=
  layout_disjoint_bounded [1/4, 1/4, 1/4, 1/4] (by norm_num)
    (by norm_num [isclose])

/-- C3: for every list of strictly positive ratios summing to 1 within
relative tolerance 1e-9, the `i`-th rectangle of the result corresponds to
the `i`-th input ratio (output order matches input order), and its area
equals that ratio within relative tolerance 1e-6. -/
theorem layout_order_and_area (ratios : List ℚ) (hpos : ∀ r ∈ ratios, 0 < r)
    (hclose : isclose ratios.sum 1 = true) :
    ∃ rects, layout_rectangles_exact ratios = some rects ∧
      rects.length = ratios.length ∧
      ∀ i, i < ratios.length → ∃ rect, rects.getD i none = some rect ∧
        |rect.width * rect.height - ratios.getD i 0| ≤
          1 / 1000000 * max |rect.width * rect.height| |ratios.getD i 0| := by
  have hne := ne_nil_of_isclose_one ratios hclose
  have hsum_pos := sum_pos_of_mem_pos ratios hne hpos
  obtain ⟨rects, hlay, hlen, hprop, -⟩ := layout_sound ratios hne hpos
  refine ⟨rects, hlay, hlen, ?_⟩
  intro i hi
  obtain ⟨rect, hget, -, harea⟩ := hprop i hi
  have hri : 0 < ratios.getD i 0 := by
    have hmem2 : ratios.getD i 0 ∈ ratios := by
      rw [List.getD_eq_getElem?_getD, List.getElem?_eq_getElem hi]
      simp only [Option.getD_some]
      exact List.getElem_mem hi
    exact hpos _ hmem2
  have hc := (isclose_iff _ _).mp hclose
  rw [abs_one] at hc
  refine ⟨rect, hget, ?_⟩
  rw [harea]
  exact ratio_div_close ratios.sum (ratios.getD i 0) hsum_pos hri hc

theorem layout_order_and_area_witness :
    ∃ rects, layout_rectangles_exact [1/2, 1/4, 1/4] = some rects ∧
      rects.length = ([(1:ℚ)/2, 1/4, 1/4]).length ∧
      ∀ i, i < ([(1:ℚ)/2, 1/4, 1/4]).length →
        ∃ rect, rects.getD i none = some rect ∧
        |rect.width * rect.height - ([(1:ℚ)/2, 1/4, 1/4]).getD i 0| ≤
          1 / 1000000 *
            max |rect.width * rect.height| |([(1:ℚ)/2, 1/4, 1/4]).getD i 0| :=
  layout_order_and_area [1/2, 1/4, 1/4] (by norm_num) (by norm_num [isclose])

/-- C7: for every non-empty list of strictly positive ratios the internal
divisions never divide by zero: `layout_rectangles_exact` returns a result
instead of the `none` that models `ZeroDivisionError`. -/
theorem layout_no_zero_division (ratios : List ℚ) (hne : ratios ≠ [])
    (hpos : ∀ r ∈ ratios, 0 < r) :
    ∃ rects, layout_rectangles_exact ratios = some rects := by
  obtain ⟨rects, hlay, -, -, -⟩ := layout_sound ratios hne hpos
  exact ⟨rects, hlay⟩

theorem layout_no_zero_division_witness :
    ∃ rects, layout_rectangles_exact [2/5, 3/5] = some rects :=
  layout_no_zero_division [2/5, 3/5] (by simp) (by norm_num)

/-- C8: `layout_rectangles_exact` performs no sum-to-one validation: on any
non-empty list of strictly positive ratios with arbitrary total `s` it
returns one rectangle per ratio, tiling the unit square (total area exactly
1), with the `i`-th area equal to `ratios[i] / s` — it silently normalizes
instead of rejecting. -/
theorem layout_silently_normalizes (ratios : List ℚ) (hne : ratios ≠ [])
    (hpos : ∀ r ∈ ratios, 0 < r) :
    ∃ rects, layout_rectangles_exact ratios = some rects ∧
      rects.length = ratios.length ∧ totalArea rects = 1 ∧
      ∀ i, i < ratios.length → ∃ rect, rects.getD i none = some rect ∧
        rect.width * rect.height = ratios.getD i 0 / ratios.sum := by
  obtain ⟨rects, hlay, hlen, hprop, -⟩ := layout_sound ratios hne hpos
  refine ⟨rects, hlay, hlen,
    layout_totalArea_one ratios hne hpos rects hlay, ?_⟩
  intro i hi
  obtain ⟨rect, hget, -, harea⟩ := hprop i hi
  exact ⟨rect, hget, harea⟩

theorem layout_silently_normalizes_witness :
    ∃ rects, layout_rectangles_exact [3/10, 3/10, 3/10] = some rects ∧
      rects.length = ([(3:ℚ)/10, 3/10, 3/10]).length ∧ totalArea rects = 1 ∧
      ∀ i, i < ([(3:ℚ)/10, 3/10, 3/10]).length →
        ∃ rect, rects.getD i none = some rect ∧
        rect.width * rect.height =
          ([(3:ℚ)/10, 3/10, 3/10]).getD i 0 / ([(3:ℚ)/10, 3/10, 3/10]).sum :=
  layout_silently_normalizes [3/10, 3/10, 3/10] (by simp) (by norm_num)

/-- C5: `draw_rectangles_by_ratio` raises `ValueError` before any layout
work whenever the ratios do not sum to 1 within relative tolerance 1e-9, or
whenever a supplied labels list has mismatched length; a successful result
presupposes the sum check passed and consists exactly of the layout
output. -/
theorem draw_validates (ratios : List ℚ) (labels : Option (List String)) :
    (isclose ratios.sum 1 = false →
      draw_rectangles_by_ratio ratios labels =
        Except.error "Ratios must sum to 1") ∧
    (∀ ls, labels = some ls → ls.length ≠ ratios.length →
      ∃ msg, draw_rectangles_by_ratio ratios labels = Except.error msg) ∧
    (∀ result, draw_rectangles_by_ratio ratios labels = Except.ok result →
      isclose ratios.sum 1 = true ∧
      result = layout_rectangles_exact ratios) := by
  refine ⟨?_, ?_, ?_⟩
  · intro hfalse
    rw [draw_rectangles_by_ratio]
    simp [hfalse]
  · intro ls hls hmis
    subst hls
    by_cases hc : isclose ratios.sum 1 = true
    · refine ⟨"Number of labels must match number of ratios", ?_⟩
      rw [draw_rectangles_by_ratio]
      simp [hc, hmis]
    · refine ⟨"Ratios must sum to 1", ?_⟩
      rw [draw_rectangles_by_ratio]
      simp [hc]
  · intro result hok
    rw [draw_rectangles_by_ratio] at hok
    by_cases hc : isclose ratios.sum 1 = true
    · simp only [hc, not_true_eq_false, if_false] at hok
      split at hok
      · exact absurd hok (by simp)
      · injection hok with hok
        exact ⟨hc, hok.symm⟩
    · simp only [Bool.not_eq_true] at hc
      simp [hc] at hok

theorem draw_validates_witness :
    draw_rectangles_by_ratio [3/10, 3/10, 3/10] none =
      Except.error "Ratios must sum to 1" ∧
    ∃ msg, draw_rectangles_by_ratio [1/2, 1/2] (some ["a"]) =
      Except.error msg :=
  ⟨(draw_validates [3/10, 3/10, 3/10] none).1
      (by norm_num [isclose, abs_of_pos, abs_of_nonneg]),
   (draw_validates [1/2, 1/2] (some ["a"])).2.1 ["a"] rfl (by simp)⟩

/-- C4: for lists of at least two indices the chosen split point lies
strictly between 0 and `len(indices)`, so both parts are non-empty and
strictly shorter (which bounds the recursion depth by the number of
ratios); consequently, for every non-empty list of strictly positive ratios
summing to 1 the layout returns exactly one rectangle per ratio with no
missing (`None`) entry. -/
theorem split_termination_count :
    (∀ (ratios : List ℚ) (indices : List ℕ) (t : ℚ), 2 ≤ indices.length →
      0 < splitPoint ratios indices t ∧
      splitPoint ratios indices t < indices.length ∧
      indices.take (splitPoint ratios indices t) ≠ [] ∧
      indices.drop (splitPoint ratios indices t) ≠ [] ∧
      (indices.take (splitPoint ratios indices t)).length < indices.length ∧
      (indices.drop (splitPoint ratios indices t)).length < indices.length) ∧
    (∀ ratios : List ℚ, ratios ≠ [] → (∀ r ∈ ratios, 0 < r) →
      isclose ratios.sum 1 = true →
      ∃ rects, layout_rectangles_exact ratios = some rects ∧
        rects.length = ratios.length ∧ ∀ o ∈ rects, o ≠ none) := by
  constructor
  · intro ratios indices t h2
    obtain ⟨hb1, hb2⟩ := splitPoint_bound ratios indices t h2
    have hlt : (indices.take (splitPoint ratios indices t)).length <
        indices.length := by
      rw [List.length_take]
      omega
    have hld : (indices.drop (splitPoint ratios indices t)).length <
        indices.length := by
      rw [List.length_drop]
      omega
    have hlt0 : 0 < (indices.take (splitPoint ratios indices t)).length := by
      rw [List.length_take]
      omega
    have hld0 : 0 < (indices.drop (splitPoint ratios indices t)).length := by
      rw [List.length_drop]
      omega
    exact ⟨by omega, by omega, List.ne_nil_of_length_pos hlt0,
      List.ne_nil_of_length_pos hld0, hlt, hld⟩
  · intro ratios hne hpos _
    obtain ⟨rects, hlay, hlen, hprop, -⟩ := layout_sound ratios hne hpos
    refine ⟨rects, hlay, hlen, ?_⟩
    intro o ho hnone
    subst hnone
    obtain ⟨i, hilt, hio⟩ := List.mem_iff_getElem.mp ho
    obtain ⟨rect, hget, -, -⟩ := hprop i (by omega)
    rw [List.getD_eq_getElem?_getD, List.getElem?_eq_getElem hilt,
      Option.getD_some, hio] at hget
    exact Option.noConfusion hget

theorem split_termination_count_witness :
    (0 < splitPoint [1/2, 1/2] [0, 1] ((1 : ℚ) / 2) ∧
      splitPoint [1/2, 1/2] [0, 1] ((1 : ℚ) / 2) < ([0, 1] : List ℕ).length ∧
      ([0, 1] : List ℕ).take (splitPoint [1/2, 1/2] [0, 1] ((1 : ℚ) / 2)) ≠ [] ∧
      ([0, 1] : List ℕ).drop (splitPoint [1/2, 1/2] [0, 1] ((1 : ℚ) / 2)) ≠ [] ∧
      (([0, 1] : List ℕ).take
        (splitPoint [1/2, 1/2] [0, 1] ((1 : ℚ) / 2))).length <
        ([0, 1] : List ℕ).length ∧
      (([0, 1] : List ℕ).drop
        (splitPoint [1/2, 1/2] [0, 1] ((1 : ℚ) / 2))).length <
        ([0, 1] : List ℕ).length) ∧
    ∃ rects, layout_rectangles_exact [1/4, 3/4] = some rects ∧
      rects.length = ([(1:ℚ)/4, 3/4]).length ∧ ∀ o ∈ rects, o ≠ none :=
  ⟨split_termination_count.1 [1/2, 1/2] [0, 1] ((1 : ℚ) / 2) (by simp),
   split_termination_count.2 [1/4, 3/4] (by simp) (by norm_num)
     (by norm_num [isclose])⟩

/-- C9: when the maximum count exceeds the minimum, the circle radius is
`0.15 + 0.6 * normalized ** 1.5`, a strictly increasing function of the
count; when all counts coincide every circle gets the fixed radius 0.4. -/
theorem association_radius_profile :
    (∀ c m M : ℕ, m < M →
      association_circle_radius c m M =
        3 / 20 + 3 / 5 *
          (((c : ℝ) - (m : ℝ)) / ((M : ℝ) - (m : ℝ))) ^ ((3 : ℝ) / 2)) ∧
    (∀ m M c1 c2 : ℕ, m < M → m ≤ c1 → c1 < c2 →
      association_circle_radius c1 m M < association_circle_radius c2 m M) ∧
    (∀ c m : ℕ, association_circle_radius c m m = 2 / 5) := by
  refine ⟨?_, ?_, ?_⟩
  · intro c m M hlt
    rw [association_circle_radius, if_neg (by omega)]
  · intro m M c1 c2 hlt h1 h12
    rw [association_circle_radius, if_neg (by omega),
      association_circle_radius, if_neg (by omega)]
    have hd : (0 : ℝ) < (M : ℝ) - (m : ℝ) := by
      have hmM : (m : ℝ) < (M : ℝ) := Nat.cast_lt.mpr hlt
      linarith
    have hx1 : (0 : ℝ) ≤ ((c1 : ℝ) - (m : ℝ)) / ((M : ℝ) - (m : ℝ)) := by
      apply div_nonneg _ hd.le
      have hmc : (m : ℝ) ≤ (c1 : ℝ) := Nat.cast_le.mpr h1
      linarith
    have hx12 : ((c1 : ℝ) - (m : ℝ)) / ((M : ℝ) - (m : ℝ)) <
        ((c2 : ℝ) - (m : ℝ)) / ((M : ℝ) - (m : ℝ)) := by
      apply div_lt_div_of_pos_right ?_ hd
      have hcc : (c1 : ℝ) < (c2 : ℝ) := Nat.cast_lt.mpr h12
      linarith
    have hpow := Real.rpow_lt_rpow hx1 hx12 (by norm_num : (0 : ℝ) < 3 / 2)
    nlinarith [hpow]
  · intro c m
    rw [association_circle_radius, if_pos rfl]

theorem association_radius_profile_witness :
    association_circle_radius 1 1 3 =
      3 / 20 + 3 / 5 *
        ((((1 : ℕ) : ℝ) - ((1 : ℕ) : ℝ)) / (((3 : ℕ) : ℝ) - ((1 : ℕ) : ℝ)))
          ^ ((3 : ℝ) / 2) ∧
    association_circle_radius 1 1 3 < association_circle_radius 2 1 3 ∧
    association_circle_radius 5 7 7 = 2 / 5 :=
  ⟨association_radius_profile.1 1 1 3 (by omega),
   association_radius_profile.2.1 1 3 1 2 (by omega) (by omega) (by omega),
   association_radius_profile.2.2 5 7⟩

/-- C10: `is_dark_color` returns `true` exactly when the luminance
`0.299*R + 0.587*G + 0.114*B` is strictly below 0.5, and the renderer picks
white label text exactly on dark colors and black text otherwise. -/
theorem dark_color_spec (c : ℚ × ℚ × ℚ)
    (_hc : 0 ≤ c.1 ∧ c.1 ≤ 1 ∧ 0 ≤ c.2.1 ∧ c.2.1 ≤ 1 ∧ 0 ≤ c.2.2 ∧ c.2.2 ≤ 1) :
    (is_dark_color c = true ↔
      299 / 1000 * c.1 + 587 / 1000 * c.2.1 + 114 / 1000 * c.2.2 < 1 / 2) ∧
    (label_text_color c = "white" ↔ is_dark_color c = true) ∧
    (label_text_color c = "black" ↔ is_dark_color c = false) := by
  refine ⟨?_, ?_, ?_⟩
  · rw [is_dark_color]
    exact decide_eq_true_iff
  · rw [label_text_color]
    by_cases h : is_dark_color c = true
    · simp [h]
    · simp [h]
  · rw [label_text_color]
    by_cases h : is_dark_color c = true
    · simp [h]
    · rw [Bool.not_eq_true] at h
      simp [h]

theorem dark_color_spec_witness :
    (is_dark_color (0, 0, 0) = true ↔
      299 / 1000 * (0 : ℚ) + 587 / 1000 * (0 : ℚ) + 114 / 1000 * (0 : ℚ) <
        1 / 2) ∧
    (label_text_color (0, 0, 0) = "white" ↔ is_dark_color (0, 0, 0) = true) ∧
    (label_text_color (0, 0, 0) = "black" ↔
      is_dark_color (0, 0, 0) = false) :=
  dark_color_spec (0, 0, 0) (by norm_num)

theorem sort_eval_ex : List.insertionSort
    (fun i j => ratioAt [2/5, 2/5, 1/10, 1/10] j ≤
      ratioAt [2/5, 2/5, 1/10, 1/10] i) (List.range 4) = [0, 1, 2, 3] := by
  norm_num [List.range_succ, List.insertionSort, List.orderedInsert, ratioAt]

theorem splitLoop_ex_0123 :
    splitLoop [2/5, 2/5, 1/10, 1/10] [0, 1, 2, 3] (1/2) 0 0 = some 2 := by
  rw [splitLoop]
  norm_num [ratioAt]
  rw [splitLoop]
  norm_num [ratioAt]

theorem splitLoop_ex_01 :
    splitLoop [2/5, 2/5, 1/10, 1/10] [0, 1] (2/5) 0 0 = some 1 := by
  rw [splitLoop]
  norm_num [ratioAt]

theorem splitLoop_ex_23 :
    splitLoop [2/5, 2/5, 1/10, 1/10] [2, 3] (1/10) 0 0 = some 1 := by
  rw [splitLoop]
  norm_num [ratioAt]

theorem splitPoint_ex_01 :
    splitPoint [2/5, 2/5, 1/10, 1/10] [0, 1]
      (sumR [2/5, 2/5, 1/10, 1/10] [0, 1] / 2) = 1 := by
  have ht : sumR [2/5, 2/5, 1/10, 1/10] [0, 1] / 2 = 2/5 := by
    norm_num [sumR, ratioAt]
  rw [ht, splitPoint, splitLoop_ex_01]

theorem splitPoint_ex_23 :
    splitPoint [2/5, 2/5, 1/10, 1/10] [2, 3]
      (sumR [2/5, 2/5, 1/10, 1/10] [2, 3] / 2) = 1 := by
  have ht : sumR [2/5, 2/5, 1/10, 1/10] [2, 3] / 2 = 1/10 := by
    norm_num [sumR, ratioAt]
  rw [ht, splitPoint, splitLoop_ex_23]

theorem splitPoint_ex_0123 :
    splitPoint [2/5, 2/5, 1/10, 1/10] [0, 1, 2, 3]
      (sumR [2/5, 2/5, 1/10, 1/10] [0, 1, 2, 3] / 2) = 2 := by
  have ht : sumR [2/5, 2/5, 1/10, 1/10] [0, 1, 2, 3] / 2 = 1/2 := by
    norm_num [sumR, ratioAt]
  rw [ht, splitPoint, splitLoop_ex_0123]

theorem split_area_ex_01 :
    split_area [2/5, 2/5, 1/10, 1/10] 0 0 (4/5) 1 [0, 1] =
      some [(0, ⟨0, 0, 2/5, 1⟩), (1, ⟨2/5, 0, 2/5, 1⟩)] := by
  rw [split_area_step_eq [2/5, 2/5, 1/10, 1/10] 0 0 (4/5) 1 [0, 1]
    (by simp) 1 (2/5) (2/5) splitPoint_ex_01.symm
    (by norm_num [sumR, ratioAt]) (by norm_num [sumR, ratioAt])]
  norm_num [split_area_singleton]

theorem split_area_ex_23 :
    split_area [2/5, 2/5, 1/10, 1/10] (4/5) 0 (1/5) 1 [2, 3] =
      some [(2, ⟨4/5, 0, 1/5, 1/2⟩), (3, ⟨4/5, 1/2, 1/5, 1/2⟩)] := by
  rw [split_area_step_eq [2/5, 2/5, 1/10, 1/10] (4/5) 0 (1/5) 1 [2, 3]
    (by simp) 1 (1/10) (1/10) splitPoint_ex_23.symm
    (by norm_num [sumR, ratioAt]) (by norm_num [sumR, ratioAt])]
  norm_num [split_area_singleton]

theorem split_area_ex_0123 :
    split_area [2/5, 2/5, 1/10, 1/10] 0 0 1 1 [0, 1, 2, 3] =
      some [(0, ⟨0, 0, 2/5, 1⟩), (1, ⟨2/5, 0, 2/5, 1⟩),
        (2, ⟨4/5, 0, 1/5, 1/2⟩), (3, ⟨4/5, 1/2, 1/5, 1/2⟩)] := by
  rw [split_area_step_eq [2/5, 2/5, 1/10, 1/10] 0 0 1 1 [0, 1, 2, 3]
    (by simp) 2 (4/5) (1/5) splitPoint_ex_0123.symm
    (by norm_num [sumR, ratioAt]) (by norm_num [sumR, ratioAt])]
  have ha : (1 : ℚ) * (4/5) / (4/5 + 1/5) = 4/5 := by norm_num
  have hb : (1 : ℚ) - 1 * (4/5) / (4/5 + 1/5) = 1/5 := by norm_num
  have hx : (0 : ℚ) + 1 * (4/5) / (4/5 + 1/5) = 4/5 := by norm_num
  norm_num [ha, hb, hx, split_area_ex_01, split_area_ex_23]

theorem layout_ex :
    layout_rectangles_exact [2/5, 2/5, 1/10, 1/10] =
      some [some ⟨0, 0, 2/5, 1⟩, some ⟨2/5, 0, 2/5, 1⟩,
        some ⟨4/5, 0, 1/5, 1/2⟩, some ⟨4/5, 1/2, 1/5, 1/2⟩] := by
  simp only [layout_rectangles_exact]
  have hlen : ([(2:ℚ)/5, 2/5, 1/10, 1/10]).length = 4 := by simp
  rw [hlen, sort_eval_ex, split_area_ex_0123]
  simp [List.replicate]

/-- C6 counterexample: in the layout of `[0.4, 0.4, 0.1, 0.1]` the recursion
reaches the region `(0, 0, 0.8, 1)` holding two indices.  Its height 1
exceeds its width 4/5, so the claimed rule demands a horizontal split (both
children keeping the full width 4/5); the code instead splits vertically:
the two children sit side by side with full height 1 and width 2/5 ≠ 4/5.
The last conjunct records the full layout, showing the region is reached. -/
theorem split_orientation_counterexample :
    ((4 : ℚ) / 5 < 1) ∧
    split_area [2/5, 2/5, 1/10, 1/10] 0 0 (4/5) 1 [0, 1] =
      some [(0, ⟨0, 0, 2/5, 1⟩), (1, ⟨2/5, 0, 2/5, 1⟩)] ∧
    ((2 : ℚ) / 5 ≠ 4 / 5) ∧
    layout_rectangles_exact [2/5, 2/5, 1/10, 1/10] =
      some [some ⟨0, 0, 2/5, 1⟩, some ⟨2/5, 0, 2/5, 1⟩,
        some ⟨4/5, 0, 1/5, 1/2⟩, some ⟨4/5, 1/2, 1/5, 1/2⟩] :=
  ⟨by norm_num, split_area_ex_01, by norm_num, layout_ex⟩

/-- C6 amended: on a region with at least two indices of strictly positive
ratios, the split orientation follows the left-biased threshold of the code:
vertical when `width ≥ height * 0.7`, horizontal only when
`width < height * 0.7` (not the strict wider-dimension rule) — and the
children are sized proportionally to the ratio-sums: the first child gets
`width * L / (L + R)` (resp. height) and the second the complementary
`width * R / (L + R)` (resp. height). -/
theorem split_orientation_amended (ratios : List ℚ) (x y w h : ℚ)
    (indices : List ℕ) (h2 : 2 ≤ indices.length)
    (hpos : ∀ i ∈ indices, 0 < ratioAt ratios i) :
    ∀ sp L R, sp = splitPoint ratios indices (sumR ratios indices / 2) →
      L = sumR ratios (indices.take sp) →
      R = sumR ratios (indices.drop sp) →
      (w ≥ h * (7 / 10) →
        split_area ratios x y w h indices =
          (split_area ratios x y (w * L / (L + R)) h (indices.take sp)).bind
            fun a => (split_area ratios (x + w * L / (L + R)) y
              (w * R / (L + R)) h (indices.drop sp)).map fun b => a ++ b) ∧
      (w < h * (7 / 10) →
        split_area ratios x y w h indices =
          (split_area ratios x y w (h * L / (L + R)) (indices.take sp)).bind
            fun a => (split_area ratios x (y + h * L / (L + R)) w
              (h * R / (L + R)) (indices.drop sp)).map fun b => a ++ b) := by
  intro sp L R hsp hL hR
  obtain ⟨hb1, hb2⟩ := splitPoint_bound ratios indices
    (sumR ratios indices / 2) h2
  have hlt0 : 0 < (indices.take sp).length := by
    rw [List.length_take]
    omega
  have hld0 : 0 < (indices.drop sp).length := by
    rw [List.length_drop]
    omega
  have hLpos : 0 < L := by
    rw [hL]
    exact sumR_pos ratios _ (List.ne_nil_of_length_pos hlt0)
      fun i hi => hpos i (List.take_subset sp indices hi)
  have hRpos : 0 < R := by
    rw [hR]
    exact sumR_pos ratios _ (List.ne_nil_of_length_pos hld0)
      fun i hi => hpos i (List.drop_subset sp indices hi)
  have hTne : L + R ≠ 0 := by positivity
  have hstep := split_area_step_eq ratios x y w h indices h2 sp L R hsp hL hR
  rw [if_neg hTne] at hstep
  constructor
  · intro hor
    rw [hstep, if_pos hor]
    have harith : w - w * L / (L + R) = w * R / (L + R) := by
      field_simp
      ring
    rw [harith]
  · intro hor
    rw [hstep, if_neg (not_le.mpr hor)]
    have harith : h - h * L / (L + R) = h * R / (L + R) := by
      field_simp
      ring
    rw [harith]

theorem split_orientation_amended_witness :
    ((4 : ℚ) / 5 ≥ 1 * (7 / 10) →
      split_area [2/5, 2/5, 1/10, 1/10] 0 0 (4/5) 1 [0, 1] =
        (split_area [2/5, 2/5, 1/10, 1/10] 0 0
            ((4/5) * (2/5) / (2/5 + 2/5)) 1 (([0, 1] : List ℕ).take 1)).bind
          fun a => (split_area [2/5, 2/5, 1/10, 1/10]
            (0 + (4/5) * (2/5) / (2/5 + 2/5)) 0
            ((4/5) * (2/5) / (2/5 + 2/5)) 1
            (([0, 1] : List ℕ).drop 1)).map fun b => a ++ b) ∧
    ((4 : ℚ) / 5 < 1 * (7 / 10) →
      split_area [2/5, 2/5, 1/10, 1/10] 0 0 (4/5) 1 [0, 1] =
        (split_area [2/5, 2/5, 1/10, 1/10] 0 0 (4/5)
            (1 * (2/5) / (2/5 + 2/5)) (([0, 1] : List ℕ).take 1)).bind
          fun a => (split_area [2/5, 2/5, 1/10, 1/10] 0
            (0 + 1 * (2/5) / (2/5 + 2/5)) (4/5)
            (1 * (2/5) / (2/5 + 2/5))
            (([0, 1] : List ℕ).drop 1)).map fun b => a ++ b) :=
  split_orientation_amended [2/5, 2/5, 1/10, 1/10] 0 0 (4/5) 1 [0, 1]
    (by simp) (by norm_num [ratioAt]) 1 (2/5) (2/5) splitPoint_ex_01.symm
    (by norm_num [sumR, ratioAt]) (by norm_num [sumR, ratioAt])
